import Mathlib

/-!
Verification development for the MenoGlobal Mexico survey dashboard
(`src/dashboard.py`).  The aggregation pipeline is embedded shallowly:

* a pandas series (after `dropna`) is a `List String`;
* `prepare_counts` (dashboard.py lines 81-89) is `value_counts`
  (distinct values with multiplicities, sorted by count descending),
  followed by the relabelling of rare values to `"Other"` and a
  `groupby(...).sum()` whose keys pandas sorts in ascending string
  order, followed by the percentage column;
* `main_counts` (lines 100-104) is the un-merged variant used for the
  main question chart;
* multi-select explosion (`series.str.split(", ").explode()`, line 98)
  is splitting each cell on the exact separator `", "` and flattening;
* the data frame and the answer filter (lines 144-149) are a list of
  rows of optional cells and a row filter; `str.contains(sel, na=False)`
  drops missing cells and matches the selected value against the cell
  text.  Pandas interprets the selection as a regular expression (the
  default `regex=True`); this embedding covers the metacharacter-free
  case, where the match is literal substring containment.

Rationals stand in for Python floats: every percentage that occurs is
exact in `ℚ`, so floating-point tolerance claims become exact identities.
-/

namespace MenoDash

/-- Lexicographic comparison of character lists by Unicode code point;
this is the order Python uses on `str` and pandas uses to sort
`groupby` keys.  Written as a structural `Bool` function so that the
kernel can evaluate it on concrete strings. -/
def lexLe : List Char → List Char → Bool
  | [], _ => true
  | _ :: _, [] => false
  | c :: cs, d :: ds =>
    if c.val.toNat < d.val.toNat then true
    else if d.val.toNat < c.val.toNat then false
    else lexLe cs ds

/-- String comparison, Python style: lexicographic on code points. -/
def strLe (a b : String) : Prop := lexLe a.toList b.toList = true

instance : DecidableRel strLe := fun a b => by
  unfold strLe
  infer_instance

/-- One row of a pandas counts frame, as produced by `prepare_counts`:
category label, occurrence count, and percentage of total. -/
structure CountRow where
  label : String
  count : Nat
  percent : ℚ
deriving DecidableEq

/-- `series.value_counts().reset_index()` (dashboard.py line 82): the
distinct values of the series with their multiplicities, sorted by
count descending. -/
def value_counts (s : List String) : List (String × Nat) :=
  List.insertionSort (fun a b : String × Nat => b.2 ≤ a.2)
    (s.dedup.map (fun v => (v, s.count v)))

/-- The row relabelling applied on lines 84-86: a row keeps its label
when its count reaches `min_count`, otherwise the label becomes
`"Other"`. -/
def relabelRow (min_count : Nat) (r : String × Nat) : String × Nat :=
  (if min_count ≤ r.2 then r.1 else "Other", r.2)

/-- Lines 84-86 of dashboard.py applied to the whole counts frame. -/
def relabelCounts (s : List String) (min_count : Nat) : List (String × Nat) :=
  (value_counts s).map (relabelRow min_count)

/-- Total of the `"count"` column over the rows with key `k`. -/
def sumForKey (ps : List (String × Nat)) (k : String) : Nat :=
  ((ps.filter (fun r => r.1 == k)).map Prod.snd).sum

/-- `counts.groupby(name, as_index=False)["count"].sum()` (line 87):
pandas sorts the group keys in ascending string order (the default
`sort=True`) and sums the counts within each group. -/
def groupbySum (ps : List (String × Nat)) : List (String × Nat) :=
  (List.insertionSort strLe (ps.map Prod.fst).dedup).map
    (fun k => (k, sumForKey ps k))

/-- `prepare_counts` (dashboard.py lines 81-89): value counts, rare
labels collapsed to `"Other"`, re-aggregated by label, then a percent
column `count / count.sum() * 100` computed on the grouped frame.
In `ℚ` the division by a zero total yields `0`, mirroring that pandas
raises no error on an empty frame (there are then no rows at all). -/
def prepare_counts (s : List String) (min_count : Nat) : List CountRow :=
  let counts := groupbySum (relabelCounts s min_count)
  let total := (counts.map Prod.snd).sum
  counts.map (fun r => ⟨r.1, r.2, (r.2 : ℚ) / (total : ℚ) * 100⟩)

/-- The main-chart table (dashboard.py lines 100-104): raw
`value_counts` with a percent column and no `"Other"` merging. -/
def main_counts (s : List String) : List CountRow :=
  let vc := value_counts s
  let total := (vc.map Prod.snd).sum
  vc.map (fun r => ⟨r.1, r.2, (r.2 : ℚ) / (total : ℚ) * 100⟩)

/-- Splitting a character list on every occurrence of the two-character
separator `", "`, scanning left to right; this is Python
`cell.split(", ")` restricted to the separator the dashboard uses. -/
def splitCommaSpace : List Char → List (List Char)
  | [] => [[]]
  | ',' :: ' ' :: rest => [] :: splitCommaSpace rest
  | c :: rest =>
    match splitCommaSpace rest with
    | [] => [[c]]
    | g :: gs => (c :: g) :: gs

/-- Python `cell.split(", ")` on strings. -/
def pySplit (cell : String) : List String :=
  (splitCommaSpace cell.toList).map String.mk

/-- `series.str.split(", ").explode()` (dashboard.py line 98): split
every cell of a multi-select column and flatten the option lists, one
occurrence per selected option per respondent. -/
def explodeMulti (cells : List String) : List String :=
  (cells.map pySplit).flatten

/-- `series.dropna()`: keep only the present cells of a column. -/
def dropna (col : List (Option String)) : List String := col.filterMap id

/-- The Response Table: one row per respondent, each row a list of
optional string cells (a missing cell is pandas `NaN`). -/
structure Table where
  rows : List (List (Option String))
deriving DecidableEq

/-- Column `j` of the table; a row too short to have cell `j` reads as
missing. -/
def Table.col (t : Table) (j : Nat) : List (Option String) :=
  t.rows.map (fun r => r.getD j none)

/-- Does `pat` occur at the start of `s`? -/
def beginsWith : List Char → List Char → Bool
  | [], _ => true
  | _ :: _, [] => false
  | p :: ps, c :: cs => p == c && beginsWith ps cs

/-- Does `s` contain `pat` as a contiguous substring? -/
def hasSubstr : List Char → List Char → Bool
  | [], pat => pat.isEmpty
  | s@(_ :: rest), pat => beginsWith pat s || hasSubstr rest pat

/-- Pandas `str.contains` matching for a pattern free of regex
metacharacters, where the match reduces to literal substring
containment.  Pandas treats the pattern as a regular expression
(default `regex=True`), so for patterns with metacharacters — or
invalid patterns, which raise — the program's behavior is that of
Python's `re.search` and lies outside this model. -/
def str_contains (cell pat : String) : Bool :=
  hasSubstr cell.toList pat.toList

/-- The row predicate of line 147,
`filtered_df[col].str.contains(selected_bar, na=False)`: a missing cell
is dropped (`na=False`), a present cell is kept when it matches the
selected value (modelled for metacharacter-free selections as literal
substring containment; see `str_contains`). -/
def keepRowMulti (j : Nat) (sel : String) (r : List (Option String)) : Bool :=
  match r.getD j none with
  | some c => str_contains c sel
  | none => false

/-- `filtered_df` (dashboard.py lines 144-149): a copy of the frame
when `"All"` is selected; otherwise, for a multi-select question, the
rows whose cell contains the selected value as a substring, and for a
single-valued question the rows whose cell equals the selected value
(a missing cell compares unequal, as in pandas). -/
def filtered_df (t : Table) (j : Nat) (isMulti : Bool) (sel : String) : Table :=
  if sel = "All" then ⟨t.rows⟩
  else if isMulti then ⟨t.rows.filter (keepRowMulti j sel)⟩
  else ⟨t.rows.filter (fun r => r.getD j none == some sel)⟩

/-- Session state: the Response Table loaded once from the CSV. -/
structure SessionState where
  df : Table
deriving DecidableEq

/-- One user interaction: the selected question column, whether it is
one of the multi-select columns, and the value chosen in the filter
dropdown (`"All"` for no filter). -/
structure Interaction where
  question : Nat
  isMulti : Bool
  selectedBar : String

/-- Everything one rerun of the script derives from the table. -/
structure Outputs where
  mainTable : List CountRow
  crossTables : List (List CountRow)
  finalTable : Table

/-- Positions of the five cross-distribution columns that are fed to
`prepare_counts` (dashboard.py line 43, charts 2-6; chart 1 is a raw
histogram and aggregates nothing). -/
def crossAggIdxs : List Nat := [30, 6, 7, 1, 2]

/-- One full rerun of the script body for a given interaction: build
the main-question series (lines 94-98), its un-merged table (lines
100-104), the filtered frame (lines 144-149) and the five aggregated
cross tables.  Every pandas operation the source performs on `df`
returns a fresh frame (`value_counts`, boolean-mask selection,
`df.copy()`); none writes to `df` in place, so the embedded step
returns the session state unchanged. -/
def runInteraction (st : SessionState) (i : Interaction) :
    SessionState × Outputs :=
  let s0 := dropna (st.df.col i.question)
  let s := if i.isMulti then explodeMulti s0 else s0
  let fdf := filtered_df st.df i.question i.isMulti i.selectedBar
  (st,
    ⟨main_counts s,
     crossAggIdxs.map (fun j => prepare_counts (dropna (fdf.col j)) 5),
     fdf⟩)

/-- Label of a value after the rare-label collapse: itself when its
multiplicity in `s` reaches the threshold, else `"Other"`. -/
def relabelOne (s : List String) (min_count : Nat) (v : String) : String :=
  if min_count ≤ s.count v then v else "Other"

/-- The rows of `relabelCounts` up to order: one row per distinct
value, carrying its final label and its multiplicity. -/
def baseRows (s : List String) (min_count : Nat) : List (String × Nat) :=
  s.dedup.map (fun v => (relabelOne s min_count v, s.count v))

/-- The group keys of `prepare_counts`: the distinct final labels in
ascending string order. -/
def finalKeys (s : List String) (min_count : Nat) : List String :=
  List.insertionSort strLe ((s.dedup.map (relabelOne s min_count)).dedup)

/-- The `(label, count)` part of the aggregator's output. -/
def rowsLC (s : List String) (min_count : Nat) : List (String × Nat) :=
  (prepare_counts s min_count).map (fun r => (r.label, r.count))

/-- The distinct values of `s` whose multiplicity is below the
threshold (the categories the aggregator merges into `"Other"`). -/
def lowCats (s : List String) (min_count : Nat) : List String :=
  s.dedup.filter (fun v => decide (s.count v < min_count))

/-- Claim C1 as stated, about an input `s` and a threshold: every
value whose multiplicity reaches the threshold appears as an output
row with its original label and multiplicity; if some category is
below the threshold there is exactly one `"Other"` row and its count
is the sum of the merged multiplicities; and no `"Other"` row appears
otherwise. -/
def aggClaimOK (s : List String) (min_count : Nat) : Prop :=
  (∀ v ∈ s, min_count ≤ s.count v → (v, s.count v) ∈ rowsLC s min_count) ∧
  (lowCats s min_count ≠ [] →
    ("Other", ((lowCats s min_count).map (fun v => s.count v)).sum) ∈
        rowsLC s min_count ∧
      ((rowsLC s min_count).filter (fun p => p.1 == "Other")).length = 1) ∧
  (lowCats s min_count = [] →
    ∀ p ∈ rowsLC s min_count, p.1 ≠ "Other")

/-! ## The string order used by the groupby -/

theorem lexLe_total (a b : List Char) : lexLe a b = true ∨ lexLe b a = true := by
  induction a generalizing b with
  | nil => left; rfl
  | cons c cs ih =>
    cases b with
    | nil => right; rfl
    | cons d ds =>
      simp only [lexLe]
      rcases Nat.lt_trichotomy c.val.toNat d.val.toNat with h | h | h
      · left; simp [h]
      · have hnd : ¬ d.val.toNat < c.val.toNat := by omega
        have hncd : ¬ c.val.toNat < d.val.toNat := by omega
        rcases ih ds with h2 | h2
        · left; simp [hnd, hncd, h2]
        · right; simp [hnd, hncd, h2]
      · right; simp [h]

theorem lexLe_trans : ∀ {a b c : List Char},
    lexLe a b = true → lexLe b c = true → lexLe a c = true := by
  intro a
  induction a with
  | nil => intro b c _ _; rfl
  | cons x xs ih =>
    intro b c hab hbc
    cases b with
    | nil => simp [lexLe] at hab
    | cons y ys =>
      cases c with
      | nil => simp [lexLe] at hbc
      | cons z zs =>
        simp only [lexLe] at hab hbc ⊢
        rcases Nat.lt_trichotomy x.val.toNat y.val.toNat with h1 | h1 | h1
        · rcases Nat.lt_trichotomy y.val.toNat z.val.toNat with h2 | h2 | h2
          · simp [Nat.lt_trans h1 h2]
          · simp [h2 ▸ h1]
          · simp [Nat.lt_asymm h2, h2] at hbc
        · rcases Nat.lt_trichotomy y.val.toNat z.val.toNat with h2 | h2 | h2
          · simp [h1 ▸ h2]
          · have hxz : x.val.toNat = z.val.toNat := h1.trans h2
            have hn1 : ¬ x.val.toNat < z.val.toNat := by omega
            have hn2 : ¬ z.val.toNat < x.val.toNat := by omega
            simp only [hn1, hn2, if_false, if_true, ite_true, ite_false]
            have hxs : lexLe xs ys = true := by
              have hna : ¬ x.val.toNat < y.val.toNat := by omega
              have hnb : ¬ y.val.toNat < x.val.toNat := by omega
              simpa [hna, hnb] using hab
            have hys : lexLe ys zs = true := by
              have hna : ¬ y.val.toNat < z.val.toNat := by omega
              have hnb : ¬ z.val.toNat < y.val.toNat := by omega
              simpa [hna, hnb] using hbc
            exact ih hxs hys
          · simp [Nat.lt_asymm h2, h2] at hbc
        · simp [Nat.lt_asymm h1, h1] at hab

theorem lexLe_antisymm : ∀ {a b : List Char},
    lexLe a b = true → lexLe b a = true → a = b := by
  intro a
  induction a with
  | nil =>
    intro b _ hba
    cases b with
    | nil => rfl
    | cons y ys => simp [lexLe] at hba
  | cons x xs ih =>
    intro b hab hba
    cases b with
    | nil => simp [lexLe] at hab
    | cons y ys =>
      simp only [lexLe] at hab hba
      rcases Nat.lt_trichotomy x.val.toNat y.val.toNat with h1 | h1 | h1
      · simp [Nat.lt_asymm h1, h1] at hba
      · have hxy : x = y := Char.ext (UInt32.ext h1)
        have hn1 : ¬ x.val.toNat < y.val.toNat := by omega
        have hn2 : ¬ y.val.toNat < x.val.toNat := by omega
        simp only [hn1, hn2, if_false, ite_false] at hab hba
        rw [hxy, ih hab hba]
      · simp [Nat.lt_asymm h1, h1] at hab

theorem toList_injective {a b : String} (h : a.toList = b.toList) : a = b := by
  cases a
  cases b
  exact congrArg String.mk h

instance : IsTotal String strLe := ⟨fun a b => lexLe_total a.toList b.toList⟩

instance : IsTrans String strLe := ⟨fun _ _ _ hab hbc => lexLe_trans hab hbc⟩

instance : IsAntisymm String strLe :=
  ⟨fun _ _ hab hba => toList_injective (lexLe_antisymm hab hba)⟩

/-! ## Counting helpers -/

theorem sum_map_add {α : Type} (K : List α) (f g : α → Nat) :
    (K.map (fun k => f k + g k)).sum = (K.map f).sum + (K.map g).sum := by
  induction K with
  | nil => rfl
  | cons x K ih => simp only [List.map_cons, List.sum_cons, ih]; omega

theorem sum_indicator_zero {α : Type} [DecidableEq α] {x : α} {K : List α}
    (n : Nat) (hx : x ∉ K) :
    (K.map (fun k => if x = k then n else 0)).sum = 0 := by
  induction K with
  | nil => rfl
  | cons y K ih =>
    have hxy : x ≠ y := fun h => hx (h ▸ List.mem_cons_self y K)
    have hxK : x ∉ K := fun h => hx (List.mem_cons_of_mem y h)
    simp [hxy, ih hxK]

theorem sum_indicator_single {α : Type} [DecidableEq α] {x : α} {K : List α}
    (n : Nat) (hK : K.Nodup) (hx : x ∈ K) :
    (K.map (fun k => if x = k then n else 0)).sum = n := by
  induction K with
  | nil => cases hx
  | cons y K ih =>
    rcases List.mem_cons.mp hx with h | h
    · subst h
      have hxK : x ∉ K := (List.nodup_cons.mp hK).1
      simp [sum_indicator_zero n hxK]
    · have hxy : x ≠ y := by
        rintro rfl
        exact (List.nodup_cons.mp hK).1 h
      simp [hxy, ih (List.nodup_cons.mp hK).2 h]

theorem sum_count_filter {α : Type} [DecidableEq α] (p : α → Bool) :
    ∀ (l K : List α), K.Nodup → (∀ x ∈ l, x ∈ K) →
      ((K.filter p).map (fun k => l.count k)).sum = l.countP p := by
  intro l
  induction l with
  | nil => intro K _ _; simp
  | cons x l ih =>
    intro K hK hs
    have hxK : x ∈ K := hs x (List.mem_cons_self x l)
    have hmap : (K.filter p).map (fun k => (x :: l).count k)
        = (K.filter p).map (fun k => l.count k + if x = k then 1 else 0) := by
      apply List.map_congr_left
      intro k _
      simp [List.count_cons]
    rw [hmap, sum_map_add,
      ih K hK (fun y hy => hs y (List.mem_cons_of_mem x hy))]
    by_cases hpx : p x = true
    · have hxKf : x ∈ K.filter p := List.mem_filter.mpr ⟨hxK, hpx⟩
      rw [sum_indicator_single 1 (hK.filter p) hxKf]
      simp [List.countP_cons, hpx]
    · have hxKf : x ∉ K.filter p := fun hmem => hpx (List.of_mem_filter hmem)
      rw [sum_indicator_zero 1 hxKf]
      simp [List.countP_cons, hpx]

theorem countP_partition {α β : Type} [DecidableEq β] (f : α → β) :
    ∀ (l : List α) (K : List β), K.Nodup → (∀ x ∈ l, f x ∈ K) →
      (K.map (fun k => l.countP (fun x => f x == k))).sum = l.length := by
  intro l
  induction l with
  | nil => intro K _ _; simp
  | cons x l ih =>
    intro K hK hs
    have h1 : K.map (fun k => (x :: l).countP (fun y => f y == k))
        = K.map (fun k =>
            l.countP (fun y => f y == k) + if f x = k then 1 else 0) := by
      apply List.map_congr_left
      intro k _
      simp [List.countP_cons]
    rw [h1, sum_map_add,
      ih K hK (fun y hy => hs y (List.mem_cons_of_mem x hy)),
      sum_indicator_single 1 hK (hs x (List.mem_cons_self x l))]
    simp

/-! ## Canonical form of the aggregation pipeline -/

theorem prepare_counts_def (s : List String) (m : Nat) :
    prepare_counts s m = (groupbySum (relabelCounts s m)).map
      (fun r => ⟨r.1, r.2,
        (r.2 : ℚ) /
          ((((groupbySum (relabelCounts s m)).map Prod.snd).sum : Nat) : ℚ)
          * 100⟩) := rfl

theorem main_counts_def (s : List String) :
    main_counts s = (value_counts s).map
      (fun r => ⟨r.1, r.2,
        (r.2 : ℚ) / ((((value_counts s).map Prod.snd).sum : Nat) : ℚ)
          * 100⟩) := rfl

theorem relabelCounts_perm (s : List String) (m : Nat) :
    (relabelCounts s m).Perm (baseRows s m) := by
  have hperm :
      ((List.insertionSort (fun a b : String × Nat => b.2 ≤ a.2)
          (s.dedup.map (fun v => (v, s.count v)))).map (relabelRow m)).Perm
        ((s.dedup.map (fun v => (v, s.count v))).map (relabelRow m)) :=
    (List.perm_insertionSort _ _).map _
  have heq : (s.dedup.map (fun v => (v, s.count v))).map (relabelRow m)
      = baseRows s m := by
    rw [List.map_map]
    rfl
  exact heq ▸ hperm

theorem sumForKey_perm {ps qs : List (String × Nat)} (h : ps.Perm qs)
    (k : String) : sumForKey ps k = sumForKey qs k :=
  ((h.filter _).map _).sum_eq

theorem groupbySum_perm {ps qs : List (String × Nat)} (h : ps.Perm qs) :
    groupbySum ps = groupbySum qs := by
  unfold groupbySum
  have hk : List.insertionSort strLe (ps.map Prod.fst).dedup
      = List.insertionSort strLe (qs.map Prod.fst).dedup :=
    List.eq_of_perm_of_sorted
      ((List.perm_insertionSort _ _).trans
        (((h.map Prod.fst).dedup).trans (List.perm_insertionSort _ _).symm))
      (List.sorted_insertionSort strLe _)
      (List.sorted_insertionSort strLe _)
  rw [hk]
  exact List.map_congr_left (fun k _ => by rw [sumForKey_perm h])

theorem baseRows_fst (s : List String) (m : Nat) :
    (baseRows s m).map Prod.fst = s.dedup.map (relabelOne s m) := by
  rw [baseRows, List.map_map]
  rfl

theorem sumForKey_base (s : List String) (m : Nat) (k : String) :
    sumForKey (baseRows s m) k
      = s.countP (fun x => relabelOne s m x == k) := by
  unfold sumForKey baseRows
  rw [List.filter_map, List.map_map]
  exact sum_count_filter (fun v => relabelOne s m v == k) s s.dedup
    (List.nodup_dedup s) (fun x hx => List.mem_dedup.mpr hx)

theorem groupbySum_base (s : List String) (m : Nat) :
    groupbySum (baseRows s m) = (finalKeys s m).map
      (fun k => (k, s.countP (fun x => relabelOne s m x == k))) := by
  unfold groupbySum finalKeys
  rw [baseRows_fst]
  exact List.map_congr_left (fun k _ => by rw [sumForKey_base])

theorem groupTotal_base (s : List String) (m : Nat) :
    ((groupbySum (baseRows s m)).map Prod.snd).sum = s.length := by
  rw [groupbySum_base, List.map_map]
  have hperm :
      ((finalKeys s m).map
          (fun k => s.countP (fun x => relabelOne s m x == k))).Perm
        (((s.dedup.map (relabelOne s m)).dedup).map
          (fun k => s.countP (fun x => relabelOne s m x == k))) :=
    (List.perm_insertionSort _ _).map _
  have hsum := hperm.sum_eq
  have hpart := countP_partition (relabelOne s m) s
    ((s.dedup.map (relabelOne s m)).dedup) (List.nodup_dedup _)
    (fun x hx => List.mem_dedup.mpr
      (List.mem_map.mpr ⟨x, List.mem_dedup.mpr hx, rfl⟩))
  calc ((finalKeys s m).map
        (Prod.snd ∘ fun k => (k, s.countP (fun x => relabelOne s m x == k)))).sum
      = ((finalKeys s m).map
          (fun k => s.countP (fun x => relabelOne s m x == k))).sum := rfl
    _ = (((s.dedup.map (relabelOne s m)).dedup).map
          (fun k => s.countP (fun x => relabelOne s m x == k))).sum := hsum
    _ = s.length := hpart

theorem groupTotal (s : List String) (m : Nat) :
    ((groupbySum (relabelCounts s m)).map Prod.snd).sum = s.length := by
  rw [groupbySum_perm (relabelCounts_perm s m), groupTotal_base]

theorem prepare_counts_eq (s : List String) (m : Nat) :
    prepare_counts s m = (finalKeys s m).map
      (fun k => ⟨k, s.countP (fun x => relabelOne s m x == k),
        ((s.countP (fun x => relabelOne s m x == k) : ℚ)
          / (s.length : ℚ)) * 100⟩) := by
  rw [prepare_counts_def, groupbySum_perm (relabelCounts_perm s m),
    groupTotal_base, groupbySum_base, List.map_map]
  rfl

theorem mem_finalKeys {s : List String} {m : Nat} {k : String} :
    k ∈ finalKeys s m ↔ ∃ v ∈ s, relabelOne s m v = k := by
  unfold finalKeys
  rw [(List.perm_insertionSort _ _).mem_iff]
  simp [List.mem_dedup]

theorem nodup_finalKeys (s : List String) (m : Nat) :
    (finalKeys s m).Nodup :=
  ((List.perm_insertionSort _ _).nodup_iff).mpr (List.nodup_dedup _)

theorem sorted_finalKeys (s : List String) (m : Nat) :
    List.Sorted strLe (finalKeys s m) :=
  List.sorted_insertionSort _ _

theorem prepare_labels (s : List String) (m : Nat) :
    (prepare_counts s m).map (fun r => r.label) = finalKeys s m := by
  rw [prepare_counts_eq, List.map_map]
  exact List.map_id' _

theorem prepare_sum_counts (s : List String) (m : Nat) :
    ((prepare_counts s m).map (fun r => r.count)).sum = s.length := by
  rw [prepare_counts_eq, List.map_map]
  have hperm :
      ((finalKeys s m).map
          (fun k => s.countP (fun x => relabelOne s m x == k))).Perm
        (((s.dedup.map (relabelOne s m)).dedup).map
          (fun k => s.countP (fun x => relabelOne s m x == k))) :=
    (List.perm_insertionSort _ _).map _
  have hpart := countP_partition (relabelOne s m) s
    ((s.dedup.map (relabelOne s m)).dedup) (List.nodup_dedup _)
    (fun x hx => List.mem_dedup.mpr
      (List.mem_map.mpr ⟨x, List.mem_dedup.mpr hx, rfl⟩))
  exact hperm.sum_eq.trans hpart

/-! ## Relabelling characterizations -/

instance aggClaimDec (s : List String) (m : Nat) : Decidable (aggClaimOK s m) := by
  unfold aggClaimOK
  infer_instance

theorem rowsLC_eq (s : List String) (m : Nat) :
    rowsLC s m = (finalKeys s m).map
      (fun k => (k, s.countP (fun x => relabelOne s m x == k))) := by
  unfold rowsLC
  rw [prepare_counts_eq, List.map_map]
  rfl

theorem relabelOne_eq_self {s : List String} {m : Nat} {v : String}
    (h : m ≤ s.count v) : relabelOne s m v = v := if_pos h

theorem relabelOne_eq_other {s : List String} {m : Nat} {v : String}
    (h : s.count v < m) : relabelOne s m v = "Other" :=
  if_neg (by omega)

theorem relabel_eq_iff_high {s : List String} {m : Nat} {v x : String}
    (hv : v ∈ s) (hother : "Other" ∉ s) (hm : m ≤ s.count v) :
    relabelOne s m x = v ↔ x = v := by
  constructor
  · intro h
    by_cases hc : m ≤ s.count x
    · rwa [relabelOne_eq_self hc] at h
    · rw [relabelOne_eq_other (by omega)] at h
      exact absurd (h ▸ hv) hother
  · rintro rfl
    exact relabelOne_eq_self hm

theorem countP_relabel_high (s : List String) (m : Nat) (v : String)
    (hv : v ∈ s) (hm : m ≤ s.count v) (hother : "Other" ∉ s) :
    s.countP (fun x => relabelOne s m x == v) = s.count v := by
  rw [List.count_eq_countP]
  apply List.countP_congr
  intro _x _
  simp only [beq_iff_eq]
  exact relabel_eq_iff_high hv hother hm

theorem relabel_eq_other_iff {s : List String} {m : Nat} {x : String}
    (hx : x ∈ s) (hother : "Other" ∉ s) :
    relabelOne s m x = "Other" ↔ s.count x < m := by
  constructor
  · intro h
    by_cases hc : m ≤ s.count x
    · rw [relabelOne_eq_self hc] at h
      exact absurd (h ▸ hx) hother
    · omega
  · intro h
    exact relabelOne_eq_other h

theorem countP_relabel_other (s : List String) (m : Nat)
    (hother : "Other" ∉ s) :
    s.countP (fun x => relabelOne s m x == "Other")
      = s.countP (fun x => decide (s.count x < m)) := by
  apply List.countP_congr
  intro x hx
  simp only [beq_iff_eq, decide_eq_true_eq]
  exact relabel_eq_other_iff hx hother

theorem lowCats_sum (s : List String) (m : Nat) :
    ((lowCats s m).map (fun v => s.count v)).sum
      = s.countP (fun x => decide (s.count x < m)) :=
  sum_count_filter (fun v => decide (s.count v < m)) s s.dedup
    (List.nodup_dedup s) (fun _x hx => List.mem_dedup.mpr hx)

theorem rowsLC_other_once (s : List String) (m : Nat)
    (hmem : "Other" ∈ finalKeys s m) :
    ((rowsLC s m).filter (fun p => p.1 == "Other")).length = 1 := by
  rw [rowsLC_eq, List.filter_map, List.length_map, ← List.countP_eq_length_filter]
  have hp : ((fun p : String × Nat => p.1 == "Other") ∘
      (fun k => (k, s.countP (fun x => relabelOne s m x == k))))
      = fun k => k == "Other" := rfl
  rw [hp, ← List.count_eq_countP]
  exact List.count_eq_one_of_mem (nodup_finalKeys s m) hmem

/-! ## Percentage lemmas -/

theorem finalKeys_countP_sum (s : List String) (m : Nat) :
    ((finalKeys s m).map
      (fun k => s.countP (fun x => relabelOne s m x == k))).sum = s.length := by
  have hperm :
      ((finalKeys s m).map
          (fun k => s.countP (fun x => relabelOne s m x == k))).Perm
        (((s.dedup.map (relabelOne s m)).dedup).map
          (fun k => s.countP (fun x => relabelOne s m x == k))) :=
    (List.perm_insertionSort _ _).map _
  have hpart := countP_partition (relabelOne s m) s
    ((s.dedup.map (relabelOne s m)).dedup) (List.nodup_dedup _)
    (fun x hx => List.mem_dedup.mpr
      (List.mem_map.mpr ⟨x, List.mem_dedup.mpr hx, rfl⟩))
  exact hperm.sum_eq.trans hpart

theorem sum_div_mul {α : Type} (K : List α) (f : α → Nat) (T : ℚ) :
    (K.map (fun k => (f k : ℚ) / T * 100)).sum
      = ((K.map f).sum : ℚ) / T * 100 := by
  induction K with
  | nil => simp
  | cons x K ih =>
    simp only [List.map_cons, List.sum_cons, ih]
    push_cast
    ring

theorem prepare_percent_eq (s : List String) (m : Nat) :
    ∀ r ∈ prepare_counts s m,
      r.percent = (r.count : ℚ) / (s.length : ℚ) * 100 := by
  intro r hr
  rw [prepare_counts_eq] at hr
  rcases List.mem_map.mp hr with ⟨k, _, rfl⟩
  rfl

theorem prepare_percent_sum (s : List String) (m : Nat) (hne : s ≠ []) :
    ((prepare_counts s m).map (fun r => r.percent)).sum = 100 := by
  have hlen0 : (s.length : ℚ) ≠ 0 :=
    Nat.cast_ne_zero.mpr (fun h => hne (List.length_eq_zero.mp h))
  rw [prepare_counts_eq, List.map_map]
  have h0 : ((fun r : CountRow => r.percent) ∘
      (fun k => (⟨k, s.countP (fun x => relabelOne s m x == k),
        ((s.countP (fun x => relabelOne s m x == k) : ℚ)
          / (s.length : ℚ)) * 100⟩ : CountRow)))
      = fun k => ((s.countP (fun x => relabelOne s m x == k) : ℚ)
          / (s.length : ℚ)) * 100 := rfl
  rw [h0, sum_div_mul (finalKeys s m)
    (fun k => s.countP (fun x => relabelOne s m x == k)) ((s.length : ℚ)),
    finalKeys_countP_sum, div_self hlen0, one_mul]

/-! ## The un-merged main-chart table versus the aggregator -/

theorem value_counts_perm (s : List String) :
    (value_counts s).Perm (s.dedup.map (fun v => (v, s.count v))) :=
  List.perm_insertionSort _ _

theorem value_counts_total (s : List String) :
    ((value_counts s).map Prod.snd).sum = s.length := by
  rw [((value_counts_perm s).map Prod.snd).sum_eq, List.map_map]
  exact List.sum_map_count_dedup_eq_length s

theorem main_counts_perm_canonical (s : List String) :
    (main_counts s).Perm (s.dedup.map (fun v =>
      (⟨v, s.count v, (s.count v : ℚ) / (s.length : ℚ) * 100⟩ : CountRow))) := by
  rw [main_counts_def, value_counts_total]
  have hperm := (value_counts_perm s).map (fun r : String × Nat =>
    (⟨r.1, r.2, (r.2 : ℚ) / ((s.length : Nat) : ℚ) * 100⟩ : CountRow))
  have heq : (s.dedup.map (fun v => (v, s.count v))).map
      (fun r : String × Nat =>
        (⟨r.1, r.2, (r.2 : ℚ) / ((s.length : Nat) : ℚ) * 100⟩ : CountRow))
      = s.dedup.map (fun v =>
        (⟨v, s.count v, (s.count v : ℚ) / (s.length : ℚ) * 100⟩ : CountRow)) := by
    rw [List.map_map]
    rfl
  exact heq ▸ hperm

theorem finalKeys_all_high (s : List String) (h : ∀ v ∈ s, 5 ≤ s.count v) :
    finalKeys s 5 = List.insertionSort strLe s.dedup := by
  unfold finalKeys
  have hc : s.dedup.map (relabelOne s 5) = s.dedup.map (fun v => v) :=
    List.map_congr_left (fun v hv =>
      relabelOne_eq_self (h v (List.mem_dedup.mp hv)))
  rw [hc, List.map_id', (List.nodup_dedup s).dedup]

theorem countP_relabel_all_high (s : List String) (v : String)
    (h : ∀ x ∈ s, 5 ≤ s.count x) :
    s.countP (fun x => relabelOne s 5 x == v) = s.count v := by
  rw [List.count_eq_countP]
  apply List.countP_congr
  intro x hx
  rw [relabelOne_eq_self (h x hx)]

theorem prepare_perm_canonical_high (s : List String)
    (h : ∀ v ∈ s, 5 ≤ s.count v) :
    (prepare_counts s 5).Perm (s.dedup.map (fun v =>
      (⟨v, s.count v, (s.count v : ℚ) / (s.length : ℚ) * 100⟩ : CountRow))) := by
  rw [prepare_counts_eq, finalKeys_all_high s h]
  have hperm := (List.perm_insertionSort strLe s.dedup).map (fun k =>
    (⟨k, s.countP (fun x => relabelOne s 5 x == k),
      ((s.countP (fun x => relabelOne s 5 x == k) : ℚ)
        / (s.length : ℚ)) * 100⟩ : CountRow))
  refine hperm.trans ?_
  have heq : s.dedup.map (fun k =>
      (⟨k, s.countP (fun x => relabelOne s 5 x == k),
        ((s.countP (fun x => relabelOne s 5 x == k) : ℚ)
          / (s.length : ℚ)) * 100⟩ : CountRow))
      = s.dedup.map (fun v =>
        (⟨v, s.count v, (s.count v : ℚ) / (s.length : ℚ) * 100⟩ : CountRow)) :=
    List.map_congr_left (fun v _ => by rw [countP_relabel_all_high s v h])
  exact heq ▸ List.Perm.refl _

theorem main_perm_prepare_high (s : List String)
    (h : ∀ v ∈ s, 5 ≤ s.count v) :
    (main_counts s).Perm (prepare_counts s 5) :=
  (main_counts_perm_canonical s).trans (prepare_perm_canonical_high s h).symm

/-! ## Explode and filter lemmas -/

theorem explode_count (cells : List String) (v : String) :
    (explodeMulti cells).count v
      = (cells.map (fun c => (pySplit c).count v)).sum := by
  unfold explodeMulti
  rw [List.count_flatten, List.map_map]
  rfl

theorem keepRowMulti_iff (j : Nat) (sel : String) (r : List (Option String)) :
    keepRowMulti j sel r = true ↔
      ∃ c, r.getD j none = some c ∧ str_contains c sel = true := by
  unfold keepRowMulti
  cases hc : r.getD j none with
  | none => simp [hc]
  | some c => simp [hc]

theorem filtered_multi_mem (t : Table) (j : Nat) (sel : String)
    (hsel : sel ≠ "All") (r : List (Option String)) :
    r ∈ (filtered_df t j true sel).rows ↔
      r ∈ t.rows ∧ ∃ c, r.getD j none = some c ∧ str_contains c sel = true := by
  unfold filtered_df
  rw [if_neg hsel]
  simp [List.mem_filter, keepRowMulti_iff]

/-! ## Claim theorems -/

/-- C1, counterexample to the claim as stated: for the input
`["Other","Other","Other","Other","Other","B"]` with threshold 5 the
aggregator outputs the single row `("Other", 6)`, because the
respondent-supplied category literally named `"Other"` (count 5, above
threshold) is merged with the rare category `"B"`; the row labeled
`"Other"` therefore does not carry the sum of the below-threshold
counts (which is 1), refuting the property for this input. -/
theorem C1_counterexample :
    (["Other", "Other", "Other", "Other", "Other", "B"] : List String) ≠ []
      ∧ rowsLC ["Other", "Other", "Other", "Other", "Other", "B"] 5
          = [("Other", 6)]
      ∧ ¬ aggClaimOK ["Other", "Other", "Other", "Other", "Other", "B"] 5 :=
  ⟨by decide, by decide, by decide⟩

/-- C1 (amended): for every non-empty input sequence none of whose
values is literally the string `"Other"`, and every threshold, each
category with count ≥ threshold appears with its original label and
count, the below-threshold categories are merged into exactly one
`"Other"` row whose count is the sum of their counts, and an `"Other"`
row is present only if some category is below the threshold. -/
theorem C1_amended (s : List String) (m : Nat) (_hne : s ≠ [])
    (hother : "Other" ∉ s) : aggClaimOK s m := by
  refine ⟨?_, ?_, ?_⟩
  · intro v hv hm
    rw [rowsLC_eq]
    refine List.mem_map.mpr
      ⟨v, mem_finalKeys.mpr ⟨v, hv, relabelOne_eq_self hm⟩, ?_⟩
    rw [countP_relabel_high s m v hv hm hother]
  · intro hlow
    have hOk : "Other" ∈ finalKeys s m := by
      rcases List.exists_mem_of_ne_nil _ hlow with ⟨v0, hv0⟩
      have hv0d : v0 ∈ s.dedup := List.mem_of_mem_filter hv0
      have hv0low : s.count v0 < m := by simpa using List.of_mem_filter hv0
      exact mem_finalKeys.mpr
        ⟨v0, List.mem_dedup.mp hv0d, relabelOne_eq_other hv0low⟩
    refine ⟨?_, rowsLC_other_once s m hOk⟩
    rw [rowsLC_eq]
    refine List.mem_map.mpr ⟨"Other", hOk, ?_⟩
    rw [lowCats_sum, countP_relabel_other s m hother]
  · intro hlow p hp
    rw [rowsLC_eq] at hp
    rcases List.mem_map.mp hp with ⟨k, hk, rfl⟩
    rcases mem_finalKeys.mp hk with ⟨v, hv, hrel⟩
    have hvm : m ≤ s.count v := by
      have := List.filter_eq_nil_iff.mp hlow v (List.mem_dedup.mpr hv)
      simp at this
      omega
    have hkv : k = v := by rw [← hrel, relabelOne_eq_self hvm]
    intro hcon
    have hk2 : k = "Other" := hcon
    have hvo : v = "Other" := hkv.symm.trans hk2
    exact hother (hvo ▸ hv)

/-- C1 (amended) witness: the amended claim instantiated at
`["A","A","A","A","A","B"]` with threshold 5. -/
theorem C1_amended_witness :
    ((["A", "A", "A", "A", "A", "B"] : List String) ≠ []
        ∧ ("Other" : String) ∉ (["A", "A", "A", "A", "A", "B"] : List String))
      ∧ aggClaimOK ["A", "A", "A", "A", "A", "B"] 5 :=
  ⟨⟨by decide, by decide⟩,
    C1_amended ["A", "A", "A", "A", "A", "B"] 5 (by decide) (by decide)⟩

/-- C2: for every input sequence and threshold, the counts in the
aggregator's output sum to the length of the input sequence. -/
theorem C2_count_sum (s : List String) (m : Nat) :
    ((prepare_counts s m).map (fun r => r.count)).sum = s.length :=
  prepare_sum_counts s m

/-- C3: for every non-empty input sequence, each output row's
percentage is its count divided by the total count times 100, and the
output percentages sum to exactly 100 (exact in `ℚ`, hence within any
floating-point tolerance). -/
theorem C3_percentages (s : List String) (m : Nat) (hne : s ≠ []) :
    (∀ r ∈ prepare_counts s m,
        r.percent = (r.count : ℚ) / (s.length : ℚ) * 100)
      ∧ ((prepare_counts s m).map (fun r => r.percent)).sum = 100 :=
  ⟨prepare_percent_eq s m, prepare_percent_sum s m hne⟩

/-- C3 witness: the percentage properties at the concrete input
`["A","B","A"]` with threshold 5. -/
theorem C3_witness :
    (["A", "B", "A"] : List String) ≠ []
      ∧ ((∀ r ∈ prepare_counts ["A", "B", "A"] 5,
            r.percent = (r.count : ℚ) / ((["A", "B", "A"] : List String).length : ℚ) * 100)
          ∧ ((prepare_counts ["A", "B", "A"] 5).map (fun r => r.percent)).sum = 100) :=
  ⟨by decide, C3_percentages ["A", "B", "A"] 5 (by decide)⟩

/-- C4: the spec's worked example: input
`["A","A","A","A","A","B","B","C"]` with threshold 5 yields exactly
`[("A", 5, 62.5%), ("Other", 3, 37.5%)]`, in that order. -/
theorem C4_worked_example :
    prepare_counts ["A", "A", "A", "A", "A", "B", "B", "C"] 5
      = [⟨"A", 5, 125 / 2⟩, ⟨"Other", 3, 75 / 2⟩] := by
  rw [prepare_counts_def]
  rw [show groupbySum (relabelCounts ["A", "A", "A", "A", "A", "B", "B", "C"] 5)
      = [("A", 5), ("Other", 3)] from by decide]
  norm_num

/-- C5: the empty input sequence yields the empty table for every
threshold; the percentage computation is total (division by the zero
total never occurs in any row because there are no rows). -/
theorem C5_empty_input : ∀ m : Nat, prepare_counts [] m = [] :=
  fun _ => rfl

/-- C6, counterexample to the claim as stated: for the input with six
`"B"` and five `"A"` at threshold 5, the output rows are
`[("A",5), ("B",6)]` — pandas `groupby` sorts them by label — so the
table is not ordered by count with the most frequent first. -/
theorem C6_counterexample :
    rowsLC ["B", "B", "B", "B", "B", "B", "A", "A", "A", "A", "A"] 5
        = [("A", 5), ("B", 6)]
      ∧ ¬ List.Sorted (fun a b : String × Nat => b.2 ≤ a.2)
          (rowsLC ["B", "B", "B", "B", "B", "B", "A", "A", "A", "A", "A"] 5) :=
  ⟨by decide, by decide⟩

/-- C6 (amended): for every input sequence and threshold the
aggregator's rows are an ordered sequence sorted by category label in
ascending lexicographic (code-point) order — the order produced by the
pandas `groupby` — not by descending count; the spec's worked example
is consistent with this only because `"A"` sorts before `"Other"`. -/
theorem C6_amended (s : List String) (m : Nat) :
    List.Sorted strLe ((prepare_counts s m).map (fun r => r.label)) := by
  rw [prepare_labels]
  exact sorted_finalKeys s m

/-- C7, counterexample to the claim as stated: on the input `["A"]`
the main question chart's table keeps the row `("A", 1)` while the
shared aggregation routine (threshold 5) outputs `("Other", 1)`; the
main chart's table is computed without the `"Other"` merging, so it
differs from the routine's output. -/
theorem C7_counterexample :
    (main_counts ["A"]).map (fun r => (r.label, r.count)) = [("A", 1)]
      ∧ rowsLC ["A"] 5 = [("Other", 1)]
      ∧ main_counts ["A"] ≠ prepare_counts ["A"] 5 := by
  refine ⟨by decide, by decide, fun h => ?_⟩
  have h3 : (main_counts ["A"]).map (fun r => (r.label, r.count))
      = [("Other", 1)] := by
    rw [h]
    exact (by decide : rowsLC ["A"] 5 = [("Other", 1)])
  rw [(by decide : (main_counts ["A"]).map (fun r => (r.label, r.count))
      = [("A", 1)])] at h3
  exact absurd h3 (by decide)

/-- C7 (amended): the `"Other"`-merging aggregation routine is applied
to the five aggregated cross-distribution columns, while the main
question chart skips the merging, so the two tables differ in general;
whenever every category's count reaches the threshold — so that the
merging is a no-op — the two tables contain the same rows up to row
order. -/
theorem C7_amended (s : List String) (h : ∀ v ∈ s, 5 ≤ s.count v) :
    (main_counts s).Perm (prepare_counts s 5) :=
  main_perm_prepare_high s h

/-- C7 (amended) witness: at `["A","A","A","A","A"]` every count
reaches the threshold and the two tables are permutations. -/
theorem C7_amended_witness :
    (∀ v ∈ (["A", "A", "A", "A", "A"] : List String),
        5 ≤ (["A", "A", "A", "A", "A"] : List String).count v)
      ∧ (main_counts ["A", "A", "A", "A", "A"]).Perm
          (prepare_counts ["A", "A", "A", "A", "A"] 5) :=
  ⟨by decide, C7_amended ["A", "A", "A", "A", "A"] (by decide)⟩

/-- C8: exploding a multi-valued column yields one occurrence per
selected option per respondent: in general the number of occurrences
of a value after exploding is the sum over respondents of the number
of times it occurs among that respondent's split options, and on the
spec's example (`"X, Y"` and `"X"`) exploding yields `["X","Y","X"]`,
with two occurrences of `"X"` and one of `"Y"`. -/
theorem C8_explode :
    (∀ (cells : List String) (v : String),
        (explodeMulti cells).count v
          = (cells.map (fun c => (pySplit c).count v)).sum)
      ∧ explodeMulti ["X, Y", "X"] = ["X", "Y", "X"]
      ∧ (explodeMulti ["X, Y", "X"]).count "X" = 2
      ∧ (explodeMulti ["X, Y", "X"]).count "Y" = 1 :=
  ⟨fun cells v => explode_count cells v, by decide, by decide, by decide⟩

/-- C9: the Response Table is immutable for the session: a full rerun
of the script (main table, filtering, cross tables) leaves the session
state unchanged, and any later interaction computes exactly what it
would have computed from the original state, so each recomputation
starts from the same data. -/
theorem C9_immutable :
    ∀ (st : SessionState) (i : Interaction),
      (runInteraction st i).1 = st
        ∧ ∀ (i2 : Interaction),
            runInteraction ((runInteraction st i).1) i2
              = runInteraction st i2 :=
  fun _ _ => ⟨rfl, fun _ => rfl⟩

end MenoDash
